import Mathlib

/-!
Verification of the `divider` string-division library against its
natural-language specification.

The TypeScript sources are shallowly embedded: pure functions become Lean
functions over `String` / `List String`; the `throw` in `divideString` is
modelled with `Except String`; JavaScript built-ins (`String.prototype.split`,
`slice`, `trim`, `decodeURIComponent`, the `URL` constructor) are modelled as
explicit Lean functions in the `JS` namespace.
-/

namespace JS

/-- JavaScript whitespace characters recognised by `String.prototype.trim`
(the common ASCII subset; the library's inputs contain no exotic Unicode
whitespace). -/
def isWhitespaceChar (c : Char) : Bool :=
  c == ' ' || c == '\t' || c == '\n' || c == '\r' || c == '\x0b' || c == '\x0c'

/-- Model of `String.prototype.trim`: strip leading and trailing whitespace. -/
def jsTrim (s : String) : String :=
  String.mk (((s.data.dropWhile isWhitespaceChar).reverse.dropWhile
    isWhitespaceChar).reverse)

/-- Model of `String.prototype.split` with a regular expression that is a
character class: the string is cut at every character matched by the class
(given as the predicate `p`), preserving empty chunks (JS semantics:
`'xaay'.split(/[a]/)` is `['x','','y']`, `''.split(/[a]/)` is `['']`). -/
def splitClass (p : Char → Bool) : List Char → List (List Char)
  | [] => [[]]
  | c :: rest =>
    let r := splitClass p rest
    if p c then [] :: r
    else
      match r with
      | [] => [[c]]
      | g :: gs => (c :: g) :: gs

/-- String-level wrapper of `splitClass`. -/
def splitClassStr (p : Char → Bool) (s : String) : List String :=
  (splitClass p s.data).map String.mk

/-- Leftmost non-overlapping split of `l` at occurrences of the fixed
substring `sep` (model of `String.prototype.split` with a string argument).
`fuel` bounds the recursion; every step consumes at least one character, so
`fuel = l.length` is always enough, and when fuel runs out the rest is
returned as the final chunk. -/
def splitSubGo (sep : List Char) : Nat → List Char → List (List Char)
  | _, [] => [[]]
  | 0, l => [l]
  | fuel + 1, c :: rest =>
    if sep.isPrefixOf (c :: rest) then
      [] :: splitSubGo sep fuel ((c :: rest).drop sep.length)
    else
      match splitSubGo sep fuel rest with
      | [] => [[c]]
      | g :: gs => (c :: g) :: gs

/-- Model of `String.prototype.split` with a string separator.  A non-empty
separator cuts at its leftmost non-overlapping occurrences; the empty
separator splits into single characters (JS: `'ab'.split('')` is
`['a','b']`, `''.split('')` is `[]`). -/
def splitSubStr (sep s : String) : List String :=
  if sep.data.isEmpty then s.data.map (fun c => String.mk [c])
  else (splitSubGo sep.data s.data.length s.data).map String.mk

/-- One item of a compiled regex character class: a literal character or a
code-unit range `lo-hi`. -/
inductive ClassItem where
  | lit (c : Char)
  | range (lo hi : Char)
deriving DecidableEq, Repr

/-- Whether a character is matched by one class item (ranges compare code
units, as JS does for BMP characters). -/
def matchItem (c : Char) : ClassItem → Bool
  | .lit d => c == d
  | .range lo hi => lo.val ≤ c.val && c.val ≤ hi.val

/-- Whether a character is matched by a compiled character class. -/
def memClass (items : List ClassItem) (c : Char) : Bool :=
  items.any (matchItem c)

/-- Read one class atom from the body of a character class: a backslash
escape yields the escaped character, anything else yields itself; `none`
models a trailing backslash (a syntax error). -/
def readAtom : List Char → Option (Char × List Char)
  | [] => Option.none
  | c :: rest =>
    if c == '\\' then
      match rest with
      | [] => Option.none
      | a :: rest2 => some (a, rest2)
    else some (c, rest)

/-- Model of parsing the body of a regex character class `[body]` as the
`RegExp` constructor does (no leading `^` can occur here, since
`escapeRegExp` escapes `^`): a sequence of atoms, where `atom - atom` forms
a range — `none` models the `SyntaxError` thrown for a range whose bounds
are out of order.  A trailing `-` is a literal.  `fuel` bounds the
recursion; every step consumes at least one character, so
`fuel = body.length` is always enough. -/
def parseCharClassGo : Nat → List Char → Option (List ClassItem)
  | _, [] => some []
  | 0, _ :: _ => Option.none
  | fuel + 1, c :: cs =>
    match readAtom (c :: cs) with
    | Option.none => Option.none
    | some (a, rest) =>
      match rest with
      | '-' :: rest2 =>
        match rest2 with
        | [] => some [.lit a, .lit '-']
        | _ :: _ =>
          match readAtom rest2 with
          | Option.none => Option.none
          | some (b, rest3) =>
            if a.val > b.val then Option.none
            else (parseCharClassGo fuel rest3).map (fun items => .range a b :: items)
      | _ => (parseCharClassGo fuel rest).map (fun items => .lit a :: items)

/-- Parse a character-class body, or `none` for a `SyntaxError`. -/
def parseCharClass (body : List Char) : Option (List ClassItem) :=
  parseCharClassGo body.length body

/-- The `SyntaxError` message of the `RegExp` constructor for an
out-of-order class range (the only syntax error reachable from
`escapeRegExp` output, which escapes everything special except `-`). -/
def regexRangeError : String :=
  "SyntaxError: Invalid regular expression: range out of order in character class"

/-- Model of `Array.prototype.join`. -/
def jsJoin (sep : String) : List String → String
  | [] => ""
  | x :: rest => rest.foldl (fun acc y => acc ++ sep ++ y) x

/-- Model of `String.prototype.slice` with JS clamping: negative positions
count from the end, and the result is empty when the normalised start is not
before the normalised end. -/
def jsSlice (s : String) (start : Int) (stop? : Option Int) : String :=
  let len : Int := s.data.length
  let norm : Int → Int := fun i => if i < 0 then max (len + i) 0 else min i len
  let a := norm start
  let b := match stop? with | some e => norm e | none => len
  if a < b then String.mk ((s.data.drop a.toNat).take (b - a).toNat)
  else ""

/-- Model of indexing `text[i]` in JS, which yields a one-character string
(out-of-range indices yield `undefined`, modelled as `""`, which compares
unequal to every one-character string just as `undefined` does). -/
def charAt (s : String) (i : Int) : String :=
  if i < 0 then ""
  else
    match s.data.drop i.toNat with
    | [] => ""
    | c :: _ => String.mk [c]

/-- Model of `String.prototype.indexOf` returning `-1` when absent. -/
def jsIndexOfGo (sub : List Char) : List Char → Int → Int
  | l, i =>
    if sub.isPrefixOf l then i
    else
      match l with
      | [] => -1
      | _ :: rest => jsIndexOfGo sub rest (i + 1)

/-- Index of the first occurrence of `sub` in `s`, or `-1`. -/
def jsIndexOf (s sub : String) : Int :=
  jsIndexOfGo sub.data s.data 0

/-- Model of `String.prototype.startsWith`. -/
def jsStartsWith (s head : String) : Bool :=
  head.data.isPrefixOf s.data

end JS

namespace Divider

/-! ## `src/constants` (values of the named constants used by the sources) -/

/-- The space character constant `WHITE_SPACE`. -/
def WHITE_SPACE : String := " "

/-- The tab character constant `TAB`. -/
def TAB : String := "\t"

/-- The exclude modes `DIVIDER_EXCLUDE_MODES` (`'none' | 'empty' | 'whitespace'`). -/
inductive ExcludeMode where
  | none
  | empty
  | whitespace
deriving DecidableEq, Repr

/-! ## `src/types` -/

/-- `DividerOptions`: each field is `Option`-valued because the sources
distinguish an absent key from an explicit `false` (`isOptions` checks key
presence with `Object.hasOwn`). -/
structure DividerOptions where
  flatten : Option Bool := Option.none
  trim : Option Bool := Option.none
  preserveEmpty : Option Bool := Option.none
  exclude : Option ExcludeMode := Option.none
deriving DecidableEq, Repr

/-- One element of the variadic argument list of `divider`:
a number, a string, an options record, or any other value (silently
dropped by classification). -/
inductive DividerArg where
  | num (n : Int)
  | str (s : String)
  | opt (o : DividerOptions)
  | other
deriving DecidableEq, Repr

/-- A runtime value in the "numeric separators" list — typed `number[]` in
TS, but `divideString` defensively validates it, so junk is representable. -/
inductive JSVal where
  | num (n : Int)
  | str (s : String)
  | other
deriving DecidableEq, Repr

/-- The union result type of `divider`: flat (`string[]`) or nested
(`string[][]`). -/
inductive DResult where
  | flat (xs : List String)
  | nested (rows : List (List String))
deriving DecidableEq, Repr

/-- The `divider` input union: a string or an array of strings. -/
inductive DividerInput where
  | str (s : String)
  | arr (xs : List String)
deriving DecidableEq, Repr

end Divider

namespace Divider

/-! ## `src/utils/is.ts` -/

/-- `isNumber` applied to a value of the numeric-separator list. -/
def JSVal.isNumber : JSVal → Bool
  | .num _ => true
  | _ => false

/-- The numeric payload of a `JSVal`, when it is a number. -/
def JSVal.toInt? : JSVal → Option Int
  | .num n => some n
  | _ => Option.none

/-- `isEmptyString` (`value === ''`). -/
def isEmptyString (value : String) : Bool :=
  value == ""

/-- `isWhitespaceOnly` (`value.trim() === ''`). -/
def isWhitespaceOnly (value : String) : Bool :=
  JS.jsTrim value == ""

/-- `isNoneMode` (`value === 'none'`; an absent value is not the none mode). -/
def isNoneMode (value : Option ExcludeMode) : Bool :=
  value == some ExcludeMode.none

/-- `isStringOrNumber` on a variadic argument. -/
def isStringOrNumberArg : DividerArg → Bool
  | .num _ => true
  | .str _ => true
  | _ => false

/-- `isOptions`: a plain object owning at least one recognised option key. -/
def isOptionsArg : DividerArg → Bool
  | .opt o =>
    o.flatten.isSome || o.trim.isSome || o.preserveEmpty.isSome || o.exclude.isSome
  | _ => false

/-- `isNestedStringArray` restricted to a `DResult` value: a non-empty array
whose first element is a non-empty array of strings. -/
def isNestedStringArrayB : DResult → Bool
  | .nested ((_ :: _) :: _) => true
  | _ => false

/-! ## `src/utils/regex.ts` (`src/unnamed/part_002`)

`getRegex` concatenates the escaped separators and wraps them in a single
regex character class: `new RegExp('[' + pattern + ']', 'g')`.  A character
class matches exactly one character.  `escapeRegExp` escapes every regex
metacharacter except `-`, so the constructor call can throw a `SyntaxError`
when an unescaped `-` forms an out-of-order range (e.g. separator `'z-a'`
compiles the body `z-a`), and an in-order `-` gives range semantics; both
are modelled by `JS.parseCharClass`.  The module-level cache is a pure
memoisation with no observable effect and is not modelled. -/

/-- `escapeRegExp` (`str.replace` over the class of regex metacharacters:
dot, star, plus, question mark, caret, dollar, the two curly braces,
parentheses, pipe, square brackets and backslash — note `-` is absent). -/
def isRegExpSpecial (c : Char) : Bool :=
  c == '.' || c == '*' || c == '+' || c == '?' || c == '^' || c == '$' ||
  c.toNat == 123 || c.toNat == 125 ||
  c == '(' || c == ')' || c == '|' || c == '[' || c == ']' || c == '\\'

/-- `escapeRegExp`: insert a backslash before every regex metacharacter. -/
def escapeRegExp (s : String) : String :=
  String.mk (s.data.flatMap (fun c => if isRegExpSpecial c then ['\\', c] else [c]))

/-- `getRegex`: `null` for an empty separator list, otherwise the compiled
character class over the concatenation of the escaped separators (mirrors
`separators.reduce((acc, sep) => acc + escapeRegExp(sep), '')`); the
`RegExp` constructor's `SyntaxError` for an out-of-order range is modelled
as `Except.error`. -/
def getRegex (separators : List String) :
    Except String (Option (List JS.ClassItem)) :=
  if separators.isEmpty then .ok Option.none
  else
    let pattern := separators.foldl (fun acc sep => acc ++ escapeRegExp sep) ""
    match JS.parseCharClass pattern.data with
    | some items => .ok (some items)
    | Option.none => .error JS.regexRangeError

/-! ## `src/utils/sort.ts` and `src/utils/slice.ts` -/

/-- Modelled from the spec: `sortAscending` (`src/utils/sort.ts` is absent
from the sources) — "Cut points are sorted ascending first (the caller may
supply them in any order, including descending or with duplicates)". -/
def sortAscending (l : List Int) : List Int :=
  l.insertionSort (· ≤ ·)

/-- Clamp a cut point into `[0, length]`. -/
def clampIndex (len : Nat) (i : Int) : Nat :=
  (min (max i 0) (len : Int)).toNat

/-- The substring of `s` from character position `a` (inclusive) to `b`
(exclusive). -/
def strSliceN (s : String) (a b : Nat) : String :=
  String.mk ((s.data.drop a).take (b - a))

/-- Modelled from the spec: the walk of `sliceByIndexes` over the sorted cut
points, carrying the previous cut position. -/
def sliceByIndexesGo (s : String) (prev : Nat) : List Int → List String
  | [] => [strSliceN s prev s.data.length]
  | i :: rest =>
    strSliceN s prev (clampIndex s.data.length i) ::
      sliceByIndexesGo s (clampIndex s.data.length i) rest

/-- Modelled from the spec: `sliceByIndexes` (`src/utils/slice.ts` is absent
from the sources) — "given ascending numeric cut points, slices a string
into contiguous substrings", "Points outside `[0, length]` are
clamped/ignored so they never throw", "Zero cut points ⇒ single segment
equal to the whole string". -/
def sliceByIndexes (s : String) (indexes : List Int) : List String :=
  sliceByIndexesGo s 0 indexes

/-! ## `src/utils/parser.ts` -/

/-- `hasNoSeparators`. -/
def hasNoSeparators (numSeparators : List JSVal) (strSeparators : List String) : Bool :=
  numSeparators.isEmpty && strSeparators.isEmpty

/-- `divideString`: the `throw new Error('Invalid numeric separators')` of
`assertValidNumSeparators` is modelled as `Except.error`. -/
def divideString (input : String) (numSeparators : List JSVal)
    (strSeparators : List String) (preserveEmpty? : Option Bool := Option.none) :
    Except String (List String) :=
  if hasNoSeparators numSeparators strSeparators then .ok [input]
  else if !(numSeparators.all JSVal.isNumber) then
    .error "Invalid numeric separators"
  else do
    let regex ← getRegex strSeparators
    let shouldPreserveEmpty := preserveEmpty? == some true
    let sortedNumSeparators := sortAscending (numSeparators.filterMap JSVal.toInt?)
    let parts := sliceByIndexes input sortedNumSeparators
    let segments :=
      match regex with
      | some items => parts.flatMap (JS.splitClassStr (JS.memClass items))
      | Option.none => parts
    pure (if shouldPreserveEmpty then segments
          else segments.filter (fun segment => !(isEmptyString segment)))

end Divider

namespace Divider

/-! ## `src/utils/exclude-predicate.ts` -/

/-- Modelled from the spec: `excludePredicateMap` (`src/utils/exclude-predicate.ts`
is absent from the sources) — §4.5: the exclude stage "filters segments by a
named predicate (e.g. drop-whitespace-only, drop-empty)".  The map holds the
keep-predicates for the `empty` and `whitespace` modes; `none` has no entry. -/
def excludePredicateMap? : ExcludeMode → Option (String → Bool)
  | .empty => some (fun s => !(isEmptyString s))
  | .whitespace => some (fun s => !(isWhitespaceOnly s))
  | .none => Option.none

/-! ## `src/utils/option.ts` -/

/-- `extractOptions`: pops a trailing options record when present, then keeps
only string/number arguments. -/
def extractOptions (args : List DividerArg) : List DividerArg × DividerOptions :=
  let lastIsOptions :=
    match args.getLast? with
    | some lastArg => isOptionsArg lastArg
    | Option.none => false
  let options :=
    if lastIsOptions then
      match args.getLast? with
      | some (.opt o) => o
      | _ => {}
    else {}
  let clonedArgs := if lastIsOptions then args.dropLast else args
  (clonedArgs.filter isStringOrNumberArg, options)

/-- `trimSegments`. -/
def trimSegments (segments : List String) (preserveEmpty : Bool) : List String :=
  let trimmed := segments.map JS.jsTrim
  if preserveEmpty then trimmed
  else trimmed.filter (fun segment => !(isEmptyString segment))

/-- `trimNestedSegments`. -/
def trimNestedSegments (rows : List (List String)) (preserveEmpty : Bool) :
    List (List String) :=
  rows.map (fun row => trimSegments row preserveEmpty)

/-- `applyTrimOption`.  JS dispatches on `isNestedStringArray(output)`; a
nested value whose first row is empty fails that test and flows into the
flat `trimSegments`, where `row.trim()` throws a `TypeError` — modelled as
`Except.error`. -/
def applyTrimOption (output : DResult) (options : DividerOptions)
    (shouldPreserveEmpty : Bool) : Except String DResult :=
  if !(options.trim.getD false) then .ok output
  else
    match output with
    | .flat xs => .ok (.flat (trimSegments xs shouldPreserveEmpty))
    | .nested [] => .ok (.nested [])
    | .nested ([] :: _) => .error "TypeError: segment.trim is not a function"
    | .nested ((c :: cs) :: rest) =>
      .ok (.nested (trimNestedSegments ((c :: cs) :: rest) shouldPreserveEmpty))

/-- `applyFlattenOption` (`output.flat()`; flattening a `string[]` yields an
equal array). -/
def applyFlattenOption (output : DResult) (options : DividerOptions) : DResult :=
  if options.flatten.getD false then
    match output with
    | .flat xs => .flat xs
    | .nested rows => .flat rows.flatten
  else output

/-- `applyExcludeOption`.  As in the source: returns unchanged for the
explicit `'none'` mode; otherwise looks the mode up in
`excludePredicateMap` (an absent/unknown mode keeps everything).  The nested
branch also drops rows emptied by filtering unless `preserveEmpty`.  A
degenerate nested value (first row empty) flows into the flat filter, where
the `whitespace` predicate would call `row.trim()` and throw, while the
`empty` predicate (`row !== ''`) keeps every row. -/
def applyExcludeOption (output : DResult) (options : DividerOptions)
    (shouldPreserveEmpty : Bool) : Except String DResult :=
  if isNoneMode options.exclude then .ok output
  else
    let shouldKeep? : Option (String → Bool) :=
      match options.exclude with
      | some mode => excludePredicateMap? mode
      | Option.none => Option.none
    let shouldKeep := shouldKeep?.getD (fun _ => true)
    match output with
    | .flat xs => .ok (.flat (xs.filter shouldKeep))
    | .nested ((c :: cs) :: rest) =>
      let filteredRows := ((c :: cs) :: rest).map (fun row => row.filter shouldKeep)
      .ok (.nested (if shouldPreserveEmpty then filteredRows
                    else filteredRows.filter (fun row => !row.isEmpty)))
    | .nested rows =>
      match options.exclude with
      | some .whitespace =>
        if rows.isEmpty then .ok (.nested rows)
        else .error "TypeError: row.trim is not a function"
      | _ => .ok (.nested rows)

/-- `applyDividerOptions`: trim, then flatten, then exclude. -/
def applyDividerOptions (result : DResult) (options : DividerOptions) :
    Except String DResult := do
  let shouldPreserveEmpty := options.preserveEmpty == some true
  let output ← applyTrimOption result options shouldPreserveEmpty
  let output := applyFlattenOption output options
  applyExcludeOption output options shouldPreserveEmpty

/-! ## `src/core/divider.ts` -/

/-- Modelled from the spec: the core `divider` orchestration
(`src/core/divider.ts` is absent from the sources; the copy appended to
`src/types/index.ts` is a stale revision that ignores `preserveEmpty`,
contradicting the repository's own `preserveEmpty` tests).  Per §2 and §4.4:
classify the arguments (`extractOptions`), divide (index slicing then
delimiter splitting, dropping empty segments unless `preserveEmpty`), then
apply the option pipeline; with no arguments at all, return the input
unchanged (`string → [input]`, array → the array itself). -/
def divider (input : DividerInput) (args : List DividerArg) :
    Except String DResult :=
  if args.isEmpty then
    .ok (match input with
      | .str s => .flat [s]
      | .arr xs => .flat xs)
  else
    let (cleanedArgs, options) := extractOptions args
    let numSeparators := cleanedArgs.filterMap
      (fun a => match a with | .num n => some (JSVal.num n) | _ => Option.none)
    let strSeparators := cleanedArgs.filterMap
      (fun a => match a with | .str s => some s | _ => Option.none)
    match input with
    | .str s => do
      let segments ← divideString s numSeparators strSeparators options.preserveEmpty
      applyDividerOptions (.flat segments) options
    | .arr xs => do
      let rows ← xs.mapM
        (fun item => divideString item numSeparators strSeparators options.preserveEmpty)
      applyDividerOptions (.nested rows) options

/-- Unwrap the flat arm of a `divider` result; on a string input the result
is always flat (TS return type `string[]`), so the `nested` case is
unreachable there. -/
def expectFlat : Except String DResult → Except String (List String)
  | .ok (.flat xs) => .ok xs
  | .ok (.nested _) => .error "unreachable: expected a flat result"
  | .error e => .error e

end Divider

namespace Divider

/-! ## `src/utils/quoted.ts` -/

/-- `dividePreserve`: divide by a single separator via the core `divider`
with `preserveEmpty`, returning `['']` for the empty string. -/
def dividePreserve (input separator : String) : Except String (List String) :=
  if isEmptyString input then .ok [""]
  else expectFlat (divider (.str input) [.str separator, .opt { preserveEmpty := some true }])

/-- `countUnescaped`: count quote characters excluding doubled pairs by
splitting on the pair and counting quotes inside each chunk. -/
def countUnescaped (text quote : String) : Except String Nat := do
  let pair := quote ++ quote
  let chunks ← dividePreserve text pair
  chunks.foldlM
    (fun count chunk => do
      let parts ← dividePreserve chunk quote
      pure (count + (parts.length - 1)))
    0

/-- The local `isWhitespace` of `stripOuterQuotes`
(`char === WHITE_SPACE || char === TAB`, on one-character strings). -/
def isWhitespaceQuoted (char : String) : Bool :=
  char == WHITE_SPACE || char == TAB

/-- The first while-loop of `findNonSpaceBounds`
(`while (left <= right && isWhitespace(text[left])) left++`), walking the
remaining characters (`chars = text.data.drop left`). -/
def boundsGoLeft (isWs : String → Bool) (right : Int) : List Char → Int → Int
  | [], left => left
  | c :: rest, left =>
    if left ≤ right && isWs (String.mk [c]) then boundsGoLeft isWs right rest (left + 1)
    else left

/-- The second while-loop of `findNonSpaceBounds`
(`while (right >= left && isWhitespace(text[right])) right--`), walking the
characters from the end (`chars = text.data.reverse`). -/
def boundsGoRight (isWs : String → Bool) (left : Int) : List Char → Int → Int
  | [], right => right
  | c :: rest, right =>
    if left ≤ right && isWs (String.mk [c]) then boundsGoRight isWs left rest (right - 1)
    else right

/-- `findNonSpaceBounds`: first and last non-whitespace indices. -/
def findNonSpaceBounds (text : String) (isWs : String → Bool) : Int × Int :=
  let left := boundsGoLeft isWs ((text.data.length : Int) - 1) text.data 0
  let right := boundsGoRight isWs left text.data.reverse ((text.data.length : Int) - 1)
  (left, right)

/-- `stripMatchedOuterQuotes`. -/
def stripMatchedOuterQuotes (text : String) (left right : Int) : String :=
  JS.jsSlice text 0 (some left) ++ JS.jsSlice text (left + 1) (some right) ++
    JS.jsSlice text (right + 1) Option.none

/-- `removeCharAt`. -/
def removeCharAt (text : String) (index : Int) : String :=
  JS.jsSlice text 0 (some index) ++ JS.jsSlice text (index + 1) Option.none

/-- The while-loop of `stripTrailingQuote`
(`while (lastNonSpaceIndex >= 0 && isWhitespace(text[lastNonSpaceIndex]))
lastNonSpaceIndex--`), walking the characters from the end. -/
def boundsGoLast (isWs : String → Bool) : List Char → Int → Int
  | [], i => i
  | c :: rest, i =>
    if 0 ≤ i && isWs (String.mk [c]) then boundsGoLast isWs rest (i - 1)
    else i

/-- `stripTrailingQuote`. -/
def stripTrailingQuote (text quoteChar : String) (isWs : String → Bool) : String :=
  let lastNonSpaceIndex := boundsGoLast isWs text.data.reverse ((text.data.length : Int) - 1)
  if lastNonSpaceIndex < 0 || JS.charAt text lastNonSpaceIndex != quoteChar then text
  else removeCharAt text lastNonSpaceIndex

/-- `stripOuterQuotesRaw`. -/
def stripOuterQuotesRaw (text quoteChar : String) (lenient : Bool)
    (isWs : String → Bool) : String :=
  let bounds := findNonSpaceBounds text isWs
  let left := bounds.1
  let right := bounds.2
  if right < left then text
  else if JS.charAt text left != quoteChar then text
  else if JS.charAt text right == quoteChar && left < right then
    stripMatchedOuterQuotes text left right
  else if !lenient then text
  else stripTrailingQuote (removeCharAt text left) quoteChar isWhitespaceQuoted

/-- `stripOuterQuotes`: strip one outer quote pair, then restore escaped
pairs (`fieldText.split(escapedPair).join(quoteChar)`). -/
def stripOuterQuotes (text quoteChar : String) (lenient : Bool := true) : String :=
  let escapedPair := quoteChar ++ quoteChar
  let stripped := stripOuterQuotesRaw text quoteChar lenient isWhitespaceQuoted
  JS.jsJoin quoteChar (JS.splitSubStr escapedPair stripped)

/-- The tokenizer state: completed fields plus the buffered field text. -/
structure QuotedState where
  fields : List String
  current : String
deriving DecidableEq, Repr

/-- `flushField`. -/
def flushField (state : QuotedState) (quote : String) (trim lenient : Bool) :
    QuotedState :=
  let fieldValue := stripOuterQuotes state.current quote lenient
  let fieldValue := if trim then JS.jsTrim fieldValue else fieldValue
  { fields := state.fields ++ [fieldValue], current := "" }

/-- `appendPiece`: extend the buffer and flush when quote parity is even. -/
def appendPiece (state : QuotedState) (piece delimiter quote : String)
    (trim lenient : Bool) : Except String QuotedState := do
  let current :=
    if isEmptyString state.current then piece
    else state.current ++ delimiter ++ piece
  let state := { state with current }
  let cnt ← countUnescaped state.current quote
  if cnt % 2 == 1 then pure state
  else pure (flushField state quote trim lenient)

/-- `buildQuotedFields`. -/
def buildQuotedFields (line delimiter quote : String) (trim lenient : Bool) :
    Except String (List String) := do
  let pieces ← dividePreserve line delimiter
  let state ← pieces.foldlM
    (fun state piece => appendPiece state piece delimiter quote trim lenient)
    ⟨[], ""⟩
  let state :=
    if !(isEmptyString state.current) then flushField state quote trim lenient
    else state
  pure state.fields

/-- The options record of `quotedDivide`, with its defaults. -/
structure QuotedDivideOptions where
  delimiter : String := ","
  quote : String := "\""
  trim : Bool := false
  lenient : Bool := true
deriving DecidableEq, Repr

/-- `quotedDivide`. -/
def quotedDivide (line : String) (options : QuotedDivideOptions := {}) :
    Except String (List String) :=
  if isEmptyString line then .ok [""]
  else buildQuotedFields line options.delimiter options.quote options.trim options.lenient

end Divider

namespace JS

/-! ## Platform model: `decodeURIComponent` and `new URL` -/

/-- Value of a hexadecimal digit character, or `none`. -/
def hexVal? (c : Char) : Option Nat :=
  if '0' ≤ c && c ≤ '9' then some (c.toNat - 48)
  else if 'A' ≤ c && c ≤ 'F' then some (c.toNat - 55)
  else if 'a' ≤ c && c ≤ 'f' then some (c.toNat - 87)
  else Option.none

/-- UTF-8 encoding of one character, as byte values. -/
def utf8Encode (c : Char) : List Nat :=
  let n := c.toNat
  if n < 0x80 then [n]
  else if n < 0x800 then [0xC0 + n / 64, 0x80 + n % 64]
  else if n < 0x10000 then [0xE0 + n / 4096, 0x80 + n / 64 % 64, 0x80 + n % 64]
  else [0xF0 + n / 262144, 0x80 + n / 4096 % 64, 0x80 + n / 64 % 64, 0x80 + n % 64]

/-- Replace every `%XX` escape by its byte and every other character by its
UTF-8 bytes; `none` on a malformed escape. -/
def percentBytes : List Char → Option (List Nat)
  | [] => some []
  | '%' :: rest =>
    match rest with
    | a :: b :: rest2 => do
      let ha ← hexVal? a
      let hb ← hexVal? b
      let bs ← percentBytes rest2
      pure ((16 * ha + hb) :: bs)
    | _ => Option.none
  | c :: rest => do
    let bs ← percentBytes rest
    pure (utf8Encode c ++ bs)

/-- Whether a byte is a UTF-8 continuation byte (`0x80..0xBF`). -/
def isCont (b : Nat) : Bool :=
  0x80 ≤ b && b ≤ 0xBF

/-- Strict UTF-8 decoding of a byte sequence (rejecting overlong forms and
surrogates, as `decodeURIComponent` does). -/
def utf8Decode : List Nat → Option (List Char)
  | [] => some []
  | b :: rest =>
    if b < 0x80 then (utf8Decode rest).map (fun cs => Char.ofNat b :: cs)
    else if 0xC2 ≤ b && b ≤ 0xDF then
      match rest with
      | b2 :: rest2 =>
        if isCont b2 then
          (utf8Decode rest2).map (fun cs => Char.ofNat ((b - 0xC0) * 64 + (b2 - 0x80)) :: cs)
        else Option.none
      | [] => Option.none
    else if 0xE0 ≤ b && b ≤ 0xEF then
      match rest with
      | b2 :: b3 :: rest2 =>
        let secondOk :=
          if b == 0xE0 then 0xA0 ≤ b2 && b2 ≤ 0xBF
          else if b == 0xED then 0x80 ≤ b2 && b2 ≤ 0x9F
          else isCont b2
        if secondOk && isCont b3 then
          (utf8Decode rest2).map
            (fun cs => Char.ofNat ((b - 0xE0) * 4096 + (b2 - 0x80) * 64 + (b3 - 0x80)) :: cs)
        else Option.none
      | _ => Option.none
    else if 0xF0 ≤ b && b ≤ 0xF4 then
      match rest with
      | b2 :: b3 :: b4 :: rest2 =>
        let secondOk :=
          if b == 0xF0 then 0x90 ≤ b2 && b2 ≤ 0xBF
          else if b == 0xF4 then 0x80 ≤ b2 && b2 ≤ 0x8F
          else isCont b2
        if secondOk && isCont b3 && isCont b4 then
          (utf8Decode rest2).map
            (fun cs => Char.ofNat ((b - 0xF0) * 262144 + (b2 - 0x80) * 4096 +
              (b3 - 0x80) * 64 + (b4 - 0x80)) :: cs)
        else Option.none
      | _ => Option.none
    else Option.none

/-- Model of `decodeURIComponent`: `none` models the thrown `URIError`. -/
def decodeURIComponent? (s : String) : Option String := do
  let bytes ← percentBytes s.data
  let chars ← utf8Decode bytes
  pure (String.mk chars)

/-- Model of `t.replace(/\+/g, ' ')`. -/
def replacePlusWithSpace (s : String) : String :=
  String.mk (s.data.map (fun c => if c == '+' then ' ' else c))

/-- Whether a character may appear in a URL scheme after the first. -/
def isSchemeChar (c : Char) : Bool :=
  c.isAlphanum || c == '+' || c == '-' || c == '.'

/-- Model of whether `new URL(input)` succeeds: the input starts with a URL
scheme (`alpha (alnum | + | - | .)* ':'`).  This is the WHATWG check that
matters here; every input the claims exercise on the catch branch contains
no `:` at all. -/
def hasURLScheme (s : String) : Bool :=
  match s.data with
  | [] => false
  | c :: rest => c.isAlpha && ((rest.dropWhile isSchemeChar).head? == some ':')

/-- Model of `new URL(input).search` for an absolute URL: the part of the
input from the first `?` (inclusive) up to the fragment, or `''`. -/
def urlSearch (input : String) : String :=
  let fragmentIndex := jsIndexOf input "#"
  let withoutFragment :=
    if fragmentIndex ≥ 0 then jsSlice input 0 (some fragmentIndex) else input
  let questionMarkIndex := jsIndexOf withoutFragment "?"
  if questionMarkIndex ≥ 0 then jsSlice withoutFragment questionMarkIndex Option.none
  else ""

end JS

namespace Divider

/-! ## `src/presets/path-divider.ts` -/

/-- `PathDividerOptions` with its destructuring defaults
(`trim = false`, `collapse = true`). -/
structure PathDividerOptions where
  trim : Bool := false
  collapse : Bool := true
deriving DecidableEq, Repr

/-- `buildPathSegments` (`PATH_SEPARATORS.SLASH = '/'`,
`PATH_SEPARATORS.ALT = '|'`). -/
def buildPathSegments (input : String) (collapse : Bool) :
    Except String (List String) :=
  if collapse then expectFlat (divider (.str input) [.str "/", .str "|"])
  else do
    let parts ← dividePreserve input "|"
    let rows ← parts.mapM (fun part => dividePreserve part "/")
    pure rows.flatten

/-- The preset-local `trimSegments` of `path-divider.ts`. -/
def pathTrimSegments (segments : List String) (trim : Bool) : List String :=
  if trim then segments.map JS.jsTrim else segments

/-- `applyCollapseRules`. -/
def applyCollapseRules (segments : List String) (collapse : Bool) : List String :=
  if collapse then segments.filter (fun segment => !(isEmptyString segment))
  else segments

/-- `pathDivider`. -/
def pathDivider (input : String) (options : PathDividerOptions := {}) :
    Except String (List String) :=
  if isEmptyString input then .ok [""]
  else do
    let segments ← buildPathSegments input options.collapse
    pure (applyCollapseRules (pathTrimSegments segments options.trim) options.collapse)

/-! ## `src/presets/query-divider.ts` -/

/-- `QUERY_DECODE_MODES` (`'auto' | 'raw'`). -/
inductive QueryDecodeMode where
  | auto
  | raw
deriving DecidableEq, Repr

/-- `QueryDividerOptions` with its destructuring defaults. -/
structure QueryDividerOptions where
  mode : QueryDecodeMode := .auto
  trim : Bool := false
deriving DecidableEq, Repr

/-- `extractQueryFromQuestionMark` (`QUERY_SEPARATORS.QUESTION_MARK = '?'`). -/
def extractQueryFromQuestionMark (input : String) : String :=
  let fragmentIndex := JS.jsIndexOf input "#"
  let withoutFragment :=
    if fragmentIndex ≥ 0 then JS.jsSlice input 0 (some fragmentIndex) else input
  let questionMarkIndex := JS.jsIndexOf withoutFragment "?"
  if questionMarkIndex ≥ 0 then
    JS.jsSlice withoutFragment (questionMarkIndex + 1) Option.none
  else withoutFragment

/-- `tryExtractQuery`: the `try` branch uses the `URL` model, the `catch`
branch falls back to `extractQueryFromQuestionMark`. -/
def tryExtractQuery (input : String) : String :=
  if JS.hasURLScheme input then
    let search := JS.urlSearch input
    if JS.jsStartsWith search "?" then JS.jsSlice search 1 Option.none else search
  else extractQueryFromQuestionMark input

/-- `stripLeadingQuestionMark`. -/
def stripLeadingQuestionMark (query : String) : String :=
  if JS.jsStartsWith query "?" then JS.jsSlice query 1 Option.none else query

/-- `splitOnFirstEquals` (`QUERY_SEPARATORS.EQUALS = '='`). -/
def splitOnFirstEquals (part : String) : Except String (String × String) := do
  let kv ← dividePreserve part "="
  if kv.length == 1 then pure (kv.headD "", "")
  else pure (kv.headD "", JS.jsJoin "=" (kv.drop 1))

/-- `decodeField`. -/
def decodeField (text : String) (mode : QueryDecodeMode) (trim : Bool) : String :=
  let t := text
  let t :=
    if mode == QueryDecodeMode.auto then
      let t := JS.replacePlusWithSpace t
      match JS.decodeURIComponent? t with
      | some decoded => decoded
      | Option.none => t
    else t
  if trim then JS.jsTrim t else t

/-- `queryDivider` (`QUERY_SEPARATORS.AMPERSAND = '&'`). -/
def queryDivider (input : String) (options : QueryDividerOptions := {}) :
    Except String (List (List String)) :=
  if input.data.length == 0 then .ok []
  else
    let query := stripLeadingQuestionMark (tryExtractQuery input)
    if query.data.length == 0 then .ok []
    else do
      let parts ← dividePreserve query "&"
      parts.mapM (fun part => do
        let kv ← splitOnFirstEquals part
        pure [decodeField kv.1 options.mode options.trim,
              decodeField kv.2 options.mode options.trim])

end Divider

namespace Divider

/-- Modelled from the spec (refinement reference for the Delimiter
Splitter): §4.3 taken literally — "splits the string at every occurrence of
any delimiter (treating each delimiter as a fixed substring, not a pattern
language)", here for a single delimiter. -/
def delimiterSplitSpec (d s : String) : List String :=
  JS.splitSubStr d s

end Divider

namespace JS

/-! ## Lemmas about the split models -/

theorem splitClass_ne_nil (p : Char → Bool) (l : List Char) :
    splitClass p l ≠ [] := by
  induction l with
  | nil => simp [splitClass]
  | cons c rest ih =>
    cases hp : p c with
    | true => simp [splitClass, hp]
    | false =>
      cases h : splitClass p rest with
      | nil => exact absurd h ih
      | cons g gs => simp [splitClass, hp, h]

theorem splitClass_cons_exists (p : Char → Bool) (rest : List Char) :
    ∃ g gs, splitClass p rest = g :: gs := by
  cases h : splitClass p rest with
  | nil => exact absurd h (splitClass_ne_nil p rest)
  | cons g gs => exact ⟨g, gs, rfl⟩

theorem splitClass_chunk_mem {p : Char → Bool} {l : List Char} {g : List Char}
    (hg : g ∈ splitClass p l) {c : Char} (hc : c ∈ g) : c ∈ l := by
  induction l generalizing g with
  | nil =>
    simp [splitClass] at hg
    subst hg
    simp at hc
  | cons x rest ih =>
    cases hp : p x with
    | true =>
      simp only [splitClass] at hg
      rw [if_pos hp] at hg
      rcases List.mem_cons.mp hg with hg | hg
      · subst hg; simp at hc
      · exact List.mem_cons_of_mem x (ih hg hc)
    | false =>
      obtain ⟨g', gs, h⟩ := splitClass_cons_exists p rest
      simp only [splitClass] at hg
      rw [if_neg (by simp [hp]), h] at hg
      rcases List.mem_cons.mp hg with hg | hg
      · subst hg
        rcases List.mem_cons.mp hc with hc | hc
        · exact hc ▸ List.mem_cons_self x rest
        · exact List.mem_cons_of_mem x (ih (h ▸ List.mem_cons_self g' gs) hc)
      · exact List.mem_cons_of_mem x (ih (h ▸ List.mem_cons_of_mem g' hg) hc)

theorem splitClass_chunk_not_sep {p : Char → Bool} {l : List Char} {g : List Char}
    (hg : g ∈ splitClass p l) {c : Char} (hc : c ∈ g) : p c = false := by
  induction l generalizing g with
  | nil =>
    simp [splitClass] at hg
    subst hg
    simp at hc
  | cons x rest ih =>
    cases hp : p x with
    | true =>
      simp only [splitClass] at hg
      rw [if_pos hp] at hg
      rcases List.mem_cons.mp hg with hg | hg
      · subst hg; simp at hc
      · exact ih hg hc
    | false =>
      obtain ⟨g', gs, h⟩ := splitClass_cons_exists p rest
      simp only [splitClass] at hg
      rw [if_neg (by simp [hp]), h] at hg
      rcases List.mem_cons.mp hg with hg | hg
      · subst hg
        rcases List.mem_cons.mp hc with hc | hc
        · exact hc ▸ hp
        · exact ih (h ▸ List.mem_cons_self g' gs) hc
      · exact ih (h ▸ List.mem_cons_of_mem g' hg) hc

theorem splitClass_all_keep {p : Char → Bool} {l : List Char}
    (h : ∀ c ∈ l, p c = false) : splitClass p l = [l] := by
  induction l with
  | nil => simp [splitClass]
  | cons x rest ih =>
    have hx : p x = false := h x (List.mem_cons_self x rest)
    have hrest : splitClass p rest = [rest] :=
      ih (fun c hc => h c (List.mem_cons_of_mem x hc))
    simp only [splitClass]
    rw [if_neg (by simp [hx]), hrest]

theorem splitSubGo_all_keep {qc : Char} {sep : List Char} {l : List Char}
    (hsep : sep.head? = some qc) (h : ¬(qc ∈ l)) (fuel : Nat) :
    splitSubGo sep fuel l = [l] := by
  induction l generalizing fuel with
  | nil => cases fuel <;> rfl
  | cons x rest ih =>
    cases fuel with
    | zero => rfl
    | succ fuel =>
      have hx : x ≠ qc := fun hxq => h (hxq ▸ List.mem_cons_self x rest)
      obtain ⟨sep', hsep'⟩ : ∃ sep', sep = qc :: sep' := by
        cases sep with
        | nil => simp at hsep
        | cons a s' =>
          simp at hsep
          exact ⟨s', by rw [hsep]⟩
      have hpre : sep.isPrefixOf (x :: rest) = false := by
        subst hsep'
        simp only [List.isPrefixOf]
        have hq : (qc == x) = false := by
          simpa using fun hq => hx hq.symm
        simp [hq]
      have hrest : splitSubGo sep fuel rest = [rest] :=
        ih (fun hm => h (List.mem_cons_of_mem x hm)) fuel
      simp [splitSubGo, hpre, hrest]

end JS

namespace JS

theorem parseCharClassGo_plain (l : List Char)
    (hno : ∀ c ∈ l, c ≠ '-' ∧ c ≠ '\\') :
    ∀ fuel, l.length ≤ fuel →
      parseCharClassGo fuel l = some (l.map ClassItem.lit) := by
  induction l with
  | nil => intro fuel _; cases fuel <;> rfl
  | cons c cs ih =>
    intro fuel hf
    obtain ⟨f, rfl⟩ : ∃ f, fuel = f + 1 := ⟨fuel - 1, by simp at hf; omega⟩
    have hc := hno c (List.mem_cons_self c cs)
    have hra : readAtom (c :: cs) = some (c, cs) := by
      simp only [readAtom]
      rw [if_neg (by simp [hc.2])]
    simp only [parseCharClassGo, hra]
    cases cs with
    | nil => simp [parseCharClassGo]
    | cons d ds =>
      have hd : d ≠ '-' := (hno d (by simp)).1
      have hrec : parseCharClassGo f (d :: ds) = some ((d :: ds).map ClassItem.lit) :=
        ih (fun x hx => hno x (List.mem_cons_of_mem c hx)) f (by simp at hf ⊢; omega)
      split
      · rename_i heq
        exact absurd (List.head_eq_of_cons_eq heq) hd
      · rw [hrec]
        rfl

end JS

namespace Divider

theorem getRegex_single_aux (sep : String) :
    getRegex [sep] =
      (match JS.parseCharClass (escapeRegExp sep).data with
        | some items => .ok (some items)
        | Option.none => .error JS.regexRangeError) := rfl

theorem getRegex_single_sem (c : Char) :
    ∃ items, getRegex [String.mk [c]] = .ok (some items) ∧
      ∀ x, JS.memClass items x = (x == c) := by
  by_cases hsp : isRegExpSpecial c = true
  · have hesc : escapeRegExp (String.mk [c]) = String.mk ['\\', c] := by
      unfold escapeRegExp
      simp [hsp]
    refine ⟨[JS.ClassItem.lit c], ?_, ?_⟩
    · rw [getRegex_single_aux, hesc]
      rfl
    · intro x
      simp [JS.memClass, JS.matchItem]
  · have hbs : c ≠ '\\' := by
      intro h
      subst h
      simp [isRegExpSpecial] at hsp
    have hesc : escapeRegExp (String.mk [c]) = String.mk [c] := by
      unfold escapeRegExp
      simp [hsp]
    refine ⟨[JS.ClassItem.lit c], ?_, ?_⟩
    · rw [getRegex_single_aux, hesc]
      have hra : JS.readAtom [c] = some (c, []) := by
        simp only [JS.readAtom]
        rw [if_neg (by simp [hbs])]
      show (match JS.parseCharClass [c] with
        | some items => Except.ok (some items)
        | Option.none => Except.error JS.regexRangeError) = _
      simp only [JS.parseCharClass, JS.parseCharClassGo, hra]
      rfl
    · intro x
      simp [JS.memClass, JS.matchItem]

end Divider

namespace Divider

theorem getRegex_pair_sem (qc : Char) :
    ∃ items, getRegex [String.mk [qc, qc]] = .ok (some items) ∧
      ∀ x, JS.memClass items x = (x == qc) := by
  by_cases hsp : isRegExpSpecial qc = true
  · have hesc : escapeRegExp (String.mk [qc, qc]) = String.mk ['\\', qc, '\\', qc] := by
      unfold escapeRegExp
      simp [hsp]
    refine ⟨[JS.ClassItem.lit qc, JS.ClassItem.lit qc], ?_, ?_⟩
    · rw [getRegex_single_aux, hesc]
      rfl
    · intro x
      simp [JS.memClass, JS.matchItem]
  · have hbs : qc ≠ '\\' := by
      intro h
      subst h
      simp [isRegExpSpecial] at hsp
    have hesc : escapeRegExp (String.mk [qc, qc]) = String.mk [qc, qc] := by
      unfold escapeRegExp
      simp [hsp]
    by_cases hd : qc = '-'
    · subst hd
      refine ⟨[JS.ClassItem.lit '-', JS.ClassItem.lit '-'], ?_, ?_⟩
      · rw [getRegex_single_aux, hesc]
        rfl
      · intro x
        simp [JS.memClass, JS.matchItem]
    · refine ⟨[JS.ClassItem.lit qc, JS.ClassItem.lit qc], ?_, ?_⟩
      · rw [getRegex_single_aux, hesc]
        have hp : JS.parseCharClass [qc, qc] =
            some [JS.ClassItem.lit qc, JS.ClassItem.lit qc] :=
          JS.parseCharClassGo_plain [qc, qc]
            (fun x hx => by
              rcases List.mem_cons.mp hx with h | h
              · exact h ▸ ⟨hd, hbs⟩
              · simp at h
                exact h ▸ ⟨hd, hbs⟩) 2 (by simp)
        show (match JS.parseCharClass [qc, qc] with
          | some items => Except.ok (some items)
          | Option.none => Except.error JS.regexRangeError) = _
        rw [hp]
      · intro x
        simp [JS.memClass, JS.matchItem]

end Divider

namespace Divider

theorem getRegex_cases (sep : String) :
    (∃ items, getRegex [sep] = .ok (some items)) ∨
      getRegex [sep] = .error JS.regexRangeError := by
  cases hp : JS.parseCharClass (escapeRegExp sep).data with
  | some items =>
    left
    exact ⟨items, by rw [getRegex_single_aux, hp]⟩
  | none =>
    right
    rw [getRegex_single_aux, hp]

theorem getRegex_error_msg (separators : List String) (e : String)
    (h : getRegex separators = .error e) : e = JS.regexRangeError := by
  unfold getRegex at h
  by_cases hse : separators.isEmpty = true
  · rw [if_pos hse] at h
    exact absurd h (by simp)
  · rw [if_neg hse] at h
    have h2 : (match JS.parseCharClass
        ((separators.foldl (fun acc sep => acc ++ escapeRegExp sep) "").data) with
      | some items => (Except.ok (some items) : Except String (Option (List JS.ClassItem)))
      | Option.none => Except.error JS.regexRangeError) = .error e := h
    cases hp : JS.parseCharClass
        ((separators.foldl (fun acc sep => acc ++ escapeRegExp sep) "").data) with
    | some items =>
      rw [hp] at h2
      exact absurd h2 (by simp)
    | none =>
      rw [hp] at h2
      exact ((Except.error.injEq _ _).mp h2).symm

theorem divideString_single_of_regex {sep : String} {items : List JS.ClassItem}
    (hreg : getRegex [sep] = .ok (some items)) (input : String) :
    divideString input [] [sep] (some true) =
      .ok (JS.splitClassStr (JS.memClass items) input) := by
  unfold divideString hasNoSeparators sortAscending sliceByIndexes sliceByIndexesGo strSliceN
  rw [hreg]
  simp [JS.splitClassStr, List.take_length]
  rw [show input.length = input.data.length from rfl, List.take_length]

theorem filter_keep_all (xs : List String) :
    xs.filter (fun _ => true) = xs := by
  induction xs with
  | nil => rfl
  | cons x rest ih => simp [List.filter, ih]

theorem applyDividerOptions_preserve_flat (xs : List String) :
    applyDividerOptions (.flat xs) { preserveEmpty := some true } = .ok (.flat xs) := by
  unfold applyDividerOptions applyTrimOption applyFlattenOption applyExcludeOption
  simp [isNoneMode, excludePredicateMap?, filter_keep_all]
  rfl

theorem divider_str_preserve {sep : String} {items : List JS.ClassItem}
    (hreg : getRegex [sep] = .ok (some items)) (input : String) :
    divider (.str input) [.str sep, .opt { preserveEmpty := some true }] =
      .ok (.flat (JS.splitClassStr (JS.memClass items) input)) := by
  have hext : extractOptions [.str sep, .opt { preserveEmpty := some true }] =
      ([.str sep], { preserveEmpty := some true }) := rfl
  unfold divider
  rw [hext]
  simp only [List.isEmpty_cons, Bool.false_eq_true, if_false]
  rw [show ([DividerArg.str sep].filterMap
        (fun a => match a with | .num n => some (JSVal.num n) | _ => Option.none)) =
      ([] : List JSVal) from rfl]
  rw [show ([DividerArg.str sep].filterMap
        (fun a => match a with | .str s => some s | _ => Option.none)) = [sep] from rfl]
  rw [divideString_single_of_regex hreg]
  exact applyDividerOptions_preserve_flat _

theorem divideString_single_error {sep e : String}
    (hreg : getRegex [sep] = .error e) (input : String) :
    divideString input [] [sep] (some true) = .error e := by
  unfold divideString hasNoSeparators
  rw [hreg]
  rfl

theorem divider_str_preserve_error {sep e : String}
    (hreg : getRegex [sep] = .error e) (input : String) :
    divider (.str input) [.str sep, .opt { preserveEmpty := some true }] = .error e := by
  have hext : extractOptions [.str sep, .opt { preserveEmpty := some true }] =
      ([.str sep], { preserveEmpty := some true }) := rfl
  unfold divider
  rw [hext]
  simp only [List.isEmpty_cons, Bool.false_eq_true, if_false]
  rw [show ([DividerArg.str sep].filterMap
        (fun a => match a with | .num n => some (JSVal.num n) | _ => Option.none)) =
      ([] : List JSVal) from rfl]
  rw [show ([DividerArg.str sep].filterMap
        (fun a => match a with | .str s => some s | _ => Option.none)) = [sep] from rfl]
  rw [divideString_single_error hreg]
  rfl

theorem dividePreserve_eq_of_regex {sep : String} {items : List JS.ClassItem}
    (hreg : getRegex [sep] = .ok (some items)) (input : String) :
    dividePreserve input sep = .ok (JS.splitClassStr (JS.memClass items) input) := by
  by_cases h : input = ""
  · subst h
    simp [dividePreserve, isEmptyString, JS.splitClassStr, JS.splitClass]
  · have hne : isEmptyString input = false := by
      simp [isEmptyString, h]
    unfold dividePreserve
    rw [hne]
    simp only [Bool.false_eq_true, if_false]
    rw [divider_str_preserve hreg]
    rfl

theorem dividePreserve_error_of_regex {sep e : String}
    (hreg : getRegex [sep] = .error e) (input : String) (h : input ≠ "") :
    dividePreserve input sep = .error e := by
  have hne : isEmptyString input = false := by
    simp [isEmptyString, h]
  unfold dividePreserve
  rw [hne]
  simp only [Bool.false_eq_true, if_false]
  rw [divider_str_preserve_error hreg]
  rfl

end Divider

namespace Divider

theorem dividePreserve_single_chunk {text chunk : String} {qc : Char}
    {itemsP : List JS.ClassItem}
    (hsemP : ∀ x, JS.memClass itemsP x = (x == qc))
    (hch : chunk ∈ JS.splitClassStr (JS.memClass itemsP) text) :
    dividePreserve chunk (String.mk [qc]) = .ok [chunk] := by
  obtain ⟨itemsS, hregS, hsemS⟩ := getRegex_single_sem qc
  rw [dividePreserve_eq_of_regex hregS]
  obtain ⟨g, hg, hgeq⟩ := List.mem_map.mp hch
  subst hgeq
  unfold JS.splitClassStr
  have hkeep : ∀ c ∈ (String.mk g).data, JS.memClass itemsS c = false := by
    intro c hcg
    have h1 := JS.splitClass_chunk_not_sep hg hcg
    rw [hsemP c] at h1
    rw [hsemS c]
    exact h1
  rw [JS.splitClass_all_keep hkeep]
  rfl

theorem foldlM_count_zero (quote : String) (chunks : List String)
    (h : ∀ chunk ∈ chunks, dividePreserve chunk quote = .ok [chunk]) (n : Nat) :
    (chunks.foldlM (fun count chunk => do
        let parts ← dividePreserve chunk quote
        pure (count + (parts.length - 1))) n) = .ok n := by
  induction chunks generalizing n with
  | nil => rfl
  | cons c rest ih =>
    have hc := h c (List.mem_cons_self c rest)
    simp only [List.foldlM, hc]
    exact ih (fun x hx => h x (List.mem_cons_of_mem c hx)) n

theorem countUnescaped_single (text : String) (qc : Char) :
    countUnescaped text (String.mk [qc]) = .ok 0 := by
  obtain ⟨itemsP, hregP, hsemP⟩ := getRegex_pair_sem qc
  have h : countUnescaped text (String.mk [qc]) =
      (dividePreserve text (String.mk [qc] ++ String.mk [qc]) >>= fun chunks =>
        chunks.foldlM (fun count chunk => do
          let parts ← dividePreserve chunk (String.mk [qc])
          pure (count + (parts.length - 1))) 0) := rfl
  rw [h, show (String.mk [qc] ++ String.mk [qc]) = String.mk [qc, qc] from rfl,
      dividePreserve_eq_of_regex hregP]
  exact foldlM_count_zero _ _
    (fun chunk hch => dividePreserve_single_chunk hsemP hch) 0

end Divider
namespace Divider

theorem boundsGoLeft_ge (isWs : String → Bool) (right : Int) :
    ∀ (l : List Char) (left : Int), left ≤ boundsGoLeft isWs right l left := by
  intro l
  induction l with
  | nil => intro left; simp [boundsGoLeft]
  | cons c rest ih =>
    intro left
    simp only [boundsGoLeft]
    split
    · exact le_trans (by omega) (ih (left + 1))
    · exact le_refl left

theorem boundsGoRight_le (isWs : String → Bool) (left : Int) :
    ∀ (l : List Char) (right : Int), boundsGoRight isWs left l right ≤ right := by
  intro l
  induction l with
  | nil => intro right; simp [boundsGoRight]
  | cons c rest ih =>
    intro right
    simp only [boundsGoRight]
    split
    · exact le_trans (ih (right - 1)) (by omega)
    · exact le_refl right

theorem charAt_mem (s : String) (i : Int) (h0 : 0 ≤ i)
    (hlt : i.toNat < s.data.length) :
    ∃ c, c ∈ s.data ∧ JS.charAt s i = String.mk [c] := by
  unfold JS.charAt
  rw [if_neg (by omega)]
  cases hd : s.data.drop i.toNat with
  | nil =>
    exfalso
    have := List.drop_eq_nil_iff.mp hd
    omega
  | cons c rest =>
    refine ⟨c, ?_, rfl⟩
    have hsub : s.data.drop i.toNat <:+ s.data := List.drop_suffix _ _
    exact hsub.subset (hd ▸ List.mem_cons_self c rest)

end Divider

namespace Divider

theorem stripOuterQuotesRaw_no_quote {text : String} {qc : Char}
    (h : qc ∉ text.data) (lenient : Bool) (isWs : String → Bool) :
    stripOuterQuotesRaw text (String.mk [qc]) lenient isWs = text := by
  unfold stripOuterQuotesRaw findNonSpaceBounds
  set L := boundsGoLeft isWs ((text.data.length : Int) - 1) text.data 0 with hL
  set R := boundsGoRight isWs L text.data.reverse ((text.data.length : Int) - 1) with hR
  by_cases hRL : R < L
  · rw [if_pos hRL]
  · rw [if_neg hRL]
    have h0 : (0 : Int) ≤ L := boundsGoLeft_ge isWs _ text.data 0
    have hRle : R ≤ (text.data.length : Int) - 1 := boundsGoRight_le isWs L _ _
    have hlt : L.toNat < text.data.length := by omega
    obtain ⟨c, hcmem, hceq⟩ := charAt_mem text L h0 hlt
    have hcne : c ≠ qc := fun hc => h (hc ▸ hcmem)
    have hne : (JS.charAt text L != String.mk [qc]) = true := by
      rw [hceq, bne_iff_ne]
      intro heq
      exact hcne (by
        have hd := congrArg String.data heq
        simpa using hd)
    rw [if_pos hne]

theorem stripOuterQuotes_no_quote {text : String} {qc : Char}
    (h : qc ∉ text.data) (lenient : Bool) :
    stripOuterQuotes text (String.mk [qc]) lenient = text := by
  have hraw := stripOuterQuotesRaw_no_quote h lenient isWhitespaceQuoted
  show JS.jsJoin (String.mk [qc])
    (JS.splitSubStr (String.mk [qc] ++ String.mk [qc])
      (stripOuterQuotesRaw text (String.mk [qc]) lenient isWhitespaceQuoted)) = text
  rw [hraw]
  show JS.jsJoin (String.mk [qc])
    (List.map String.mk (JS.splitSubGo [qc, qc] text.data.length text.data)) = text
  rw [@JS.splitSubGo_all_keep qc [qc, qc] text.data rfl h text.data.length]
  cases text with
  | mk l => rfl

end Divider

namespace Divider

theorem appendPiece_plain (fs : List String) (p d : String) (qc : Char)
    (hp : qc ∉ p.data) (lenient : Bool) :
    appendPiece ⟨fs, ""⟩ p d (String.mk [qc]) false lenient =
      .ok ⟨fs ++ [p], ""⟩ := by
  have hkey : appendPiece ⟨fs, ""⟩ p d (String.mk [qc]) false lenient =
      (countUnescaped p (String.mk [qc]) >>= fun cnt =>
        if cnt % 2 == 1 then pure ⟨fs, p⟩
        else pure (flushField ⟨fs, p⟩ (String.mk [qc]) false lenient)) := rfl
  rw [hkey, countUnescaped_single p qc]
  show Except.ok (flushField ⟨fs, p⟩ (String.mk [qc]) false lenient) = _
  unfold flushField
  rw [stripOuterQuotes_no_quote hp]
  rfl

theorem quotedFold_plain (d : String) (qc : Char) (lenient : Bool)
    (pieces : List String) (hP : ∀ p ∈ pieces, qc ∉ p.data) :
    ∀ fs, pieces.foldlM
        (fun state piece => appendPiece state piece d (String.mk [qc]) false lenient)
        ⟨fs, ""⟩ = .ok ⟨fs ++ pieces, ""⟩ := by
  induction pieces with
  | nil => intro fs; simp [List.foldlM]; rfl
  | cons p rest ih =>
    intro fs
    have hp := hP p (List.mem_cons_self p rest)
    simp only [List.foldlM, appendPiece_plain fs p d qc hp lenient]
    rw [show (Except.ok (⟨fs ++ [p], ""⟩ : QuotedState) >>= fun s => rest.foldlM
        (fun state piece => appendPiece state piece d (String.mk [qc]) false lenient) s) =
      rest.foldlM
        (fun state piece => appendPiece state piece d (String.mk [qc]) false lenient)
        ⟨fs ++ [p], ""⟩ from rfl]
    rw [ih (fun x hx => hP x (List.mem_cons_of_mem p hx)) (fs ++ [p])]
    simp

theorem quotedDivide_no_quotes (line d : String) (qc : Char)
    (h1 : line ≠ "") (h2 : qc ∉ line.data) :
    quotedDivide line { delimiter := d, quote := String.mk [qc], trim := false, lenient := true } =
      dividePreserve line d := by
  have hne : isEmptyString line = false := by simp [isEmptyString, h1]
  unfold quotedDivide
  rw [hne]
  simp only [Bool.false_eq_true, if_false]
  have hbq : buildQuotedFields line d (String.mk [qc]) false true =
      (dividePreserve line d >>= fun pieces =>
        (pieces.foldlM
          (fun state piece => appendPiece state piece d (String.mk [qc]) false true)
          ⟨[], ""⟩ >>= fun state =>
        pure (if !(isEmptyString state.current) then
          flushField state (String.mk [qc]) false true else state).fields)) := rfl
  rcases getRegex_cases d with ⟨items, hreg⟩ | hreg
  · rw [hbq, dividePreserve_eq_of_regex hreg]
    have hP : ∀ p ∈ JS.splitClassStr (JS.memClass items) line, qc ∉ p.data := by
      intro p hp hqc
      obtain ⟨g, hg, hgeq⟩ := List.mem_map.mp hp
      subst hgeq
      exact h2 (JS.splitClass_chunk_mem hg hqc)
    rw [show (Except.ok (JS.splitClassStr (JS.memClass items) line) >>= fun pieces =>
        (pieces.foldlM
          (fun state piece => appendPiece state piece d (String.mk [qc]) false true)
          ⟨[], ""⟩ >>= fun state =>
        pure (if !(isEmptyString state.current) then
          flushField state (String.mk [qc]) false true else state).fields)) =
      ((JS.splitClassStr (JS.memClass items) line).foldlM
          (fun state piece => appendPiece state piece d (String.mk [qc]) false true)
          ⟨[], ""⟩ >>= fun state =>
        pure (if !(isEmptyString state.current) then
          flushField state (String.mk [qc]) false true else state).fields) from rfl]
    rw [quotedFold_plain d qc true _ hP []]
    simp [isEmptyString]
  · have hdp : dividePreserve line d = .error JS.regexRangeError :=
      dividePreserve_error_of_regex hreg line h1
    rw [hbq, hdp]
    rfl

end Divider

namespace Divider

theorem sortAscending_perm_eq {l₁ l₂ : List Int} (h : l₁.Perm l₂) :
    sortAscending l₁ = sortAscending l₂ := by
  have s₁ : List.Sorted (· ≤ ·) (sortAscending l₁) := List.sorted_insertionSort _ l₁
  have s₂ : List.Sorted (· ≤ ·) (sortAscending l₂) := List.sorted_insertionSort _ l₂
  have hp : (sortAscending l₁).Perm (sortAscending l₂) :=
    (List.perm_insertionSort _ l₁).trans (h.trans (List.perm_insertionSort _ l₂).symm)
  exact List.eq_of_perm_of_sorted hp s₁ s₂

theorem filterMap_toInt_map_num (l : List Int) :
    (l.map JSVal.num).filterMap JSVal.toInt? = l := by
  induction l with
  | nil => rfl
  | cons x rest ih => simp [JSVal.toInt?, ih]

theorem all_isNumber_map_num (l : List Int) :
    (l.map JSVal.num).all JSVal.isNumber = true := by
  induction l with
  | nil => rfl
  | cons x rest ih => simp [JSVal.isNumber, ih]

theorem divideString_nums_perm (s : String) {l₁ l₂ : List Int} (h : l₁.Perm l₂)
    (strs : List String) (pe : Option Bool) :
    divideString s (l₁.map .num) strs pe = divideString s (l₂.map .num) strs pe := by
  by_cases hn : l₁ = []
  · subst hn
    rw [h.symm.eq_nil]
  · have hn₂ : l₂ ≠ [] := fun he => hn (he ▸ h).eq_nil
    unfold divideString hasNoSeparators
    have e₁ : (l₁.map JSVal.num).isEmpty = false := by
      cases l₁ with
      | nil => exact absurd rfl hn
      | cons a b => rfl
    have e₂ : (l₂.map JSVal.num).isEmpty = false := by
      cases l₂ with
      | nil => exact absurd rfl hn₂
      | cons a b => rfl
    rw [e₁, e₂, all_isNumber_map_num, all_isNumber_map_num,
        filterMap_toInt_map_num, filterMap_toInt_map_num, sortAscending_perm_eq h]

end Divider

namespace Divider

theorem filter_son_map_num (l : List Int) :
    (l.map DividerArg.num).filter isStringOrNumberArg = l.map DividerArg.num := by
  induction l with
  | nil => rfl
  | cons x rest ih => simp [List.filter, isStringOrNumberArg, ih]

theorem filterMap_numSep_map_num (l : List Int) :
    (l.map DividerArg.num).filterMap
      (fun a => match a with | .num n => some (JSVal.num n) | _ => Option.none) =
      l.map JSVal.num := by
  induction l with
  | nil => rfl
  | cons x rest ih => simp [List.filterMap_cons, ih]

theorem filterMap_strSep_map_num (l : List Int) :
    (l.map DividerArg.num).filterMap
      (fun a => match a with | .str s => some s | _ => Option.none) = [] := by
  induction l with
  | nil => rfl
  | cons x rest ih => simp [List.filterMap_cons, ih]

theorem extractOptions_nums_opt (l : List Int) (o : DividerOptions) :
    extractOptions (l.map .num ++ [.opt o]) =
      (l.map .num, if isOptionsArg (.opt o) then o else {}) := by
  unfold extractOptions
  rw [List.getLast?_concat]
  cases hb : isOptionsArg (.opt o) with
  | true =>
    simp only [hb, if_true]
    rw [List.dropLast_concat]
    rw [filter_son_map_num]
  | false =>
    simp only [hb, Bool.false_eq_true, if_false]
    rw [List.filter_append, filter_son_map_num]
    simp [isOptionsArg] at hb
    simp [List.filter, isStringOrNumberArg]

end Divider

namespace Divider

theorem extractOptions_nums (l : List Int) (hl : l ≠ []) :
    extractOptions (l.map .num) = (l.map .num, {}) := by
  obtain ⟨l', a, rfl⟩ := (List.eq_nil_or_concat l).resolve_left hl
  rw [List.concat_eq_append]
  have hm : (l' ++ [a]).map DividerArg.num =
      l'.map DividerArg.num ++ [DividerArg.num a] := by simp
  rw [hm]
  unfold extractOptions
  rw [List.getLast?_concat]
  simp only [isOptionsArg, Bool.false_eq_true, if_false]
  rw [List.filter_append, filter_son_map_num]
  simp [List.filter, isStringOrNumberArg]

theorem divider_str_perm_opt (s : String) {l₁ l₂ : List Int} (h : l₁.Perm l₂)
    (o : DividerOptions) :
    divider (.str s) (l₁.map .num ++ [.opt o]) =
      divider (.str s) (l₂.map .num ++ [.opt o]) := by
  unfold divider
  have h₁ : (l₁.map DividerArg.num ++ [DividerArg.opt o]).isEmpty = false := by
    cases l₁ <;> rfl
  have h₂ : (l₂.map DividerArg.num ++ [DividerArg.opt o]).isEmpty = false := by
    cases l₂ <;> rfl
  rw [h₁, h₂, extractOptions_nums_opt l₁ o, extractOptions_nums_opt l₂ o]
  simp only []
  rw [filterMap_numSep_map_num, filterMap_numSep_map_num,
      filterMap_strSep_map_num, filterMap_strSep_map_num,
      divideString_nums_perm s h [] _]

theorem divider_str_perm_plain (s : String) {l₁ l₂ : List Int} (h : l₁.Perm l₂) :
    divider (.str s) (l₁.map .num) = divider (.str s) (l₂.map .num) := by
  by_cases hn : l₁ = []
  · subst hn
    rw [h.symm.eq_nil]
  · have hn₂ : l₂ ≠ [] := fun he => hn (he ▸ h).eq_nil
    unfold divider
    have h₁ : (l₁.map DividerArg.num).isEmpty = false := by
      cases l₁ with
      | nil => exact absurd rfl hn
      | cons a b => rfl
    have h₂ : (l₂.map DividerArg.num).isEmpty = false := by
      cases l₂ with
      | nil => exact absurd rfl hn₂
      | cons a b => rfl
    rw [h₁, h₂, extractOptions_nums l₁ hn, extractOptions_nums l₂ hn₂]
    simp only []
    rw [filterMap_numSep_map_num, filterMap_numSep_map_num,
        filterMap_strSep_map_num, filterMap_strSep_map_num,
        divideString_nums_perm s h [] _]

end Divider

namespace Divider

theorem divideString_valid_cases (input : String) (nums : List JSVal)
    (strs : List String) (pe : Option Bool)
    (h2 : nums.all JSVal.isNumber = true) :
    (∃ r, divideString input nums strs pe = .ok r) ∨
      (divideString input nums strs pe = .error JS.regexRangeError) := by
  unfold divideString hasNoSeparators
  by_cases h1 : (nums.isEmpty && strs.isEmpty) = true
  · rw [if_pos h1]
    exact Or.inl ⟨[input], rfl⟩
  · rw [if_neg h1, if_neg (by simp [h2])]
    cases hr : getRegex strs with
    | ok rx =>
      exact Or.inl ⟨_, rfl⟩
    | error e =>
      rw [getRegex_error_msg strs e hr]
      exact Or.inr rfl

theorem divideString_invalid_iff (input : String) (nums : List JSVal)
    (strs : List String) (pe : Option Bool) :
    divideString input nums strs pe = .error "Invalid numeric separators" ↔
      (¬(nums = [] ∧ strs = []) ∧ ¬(∀ v ∈ nums, v.isNumber = true)) := by
  constructor
  · intro h
    refine ⟨?_, ?_⟩
    · rintro ⟨hn, hs⟩
      subst hn
      subst hs
      simp [divideString, hasNoSeparators] at h
    · intro hall
      have h2 : nums.all JSVal.isNumber = true := List.all_eq_true.mpr hall
      rcases divideString_valid_cases input nums strs pe h2 with ⟨r, hr⟩ | he
      · rw [h] at hr
        exact absurd hr (by simp)
      · rw [h] at he
        have heq : "Invalid numeric separators" = JS.regexRangeError :=
          (Except.error.injEq _ _).mp he
        exact absurd heq (by decide)
  · rintro ⟨h1, h2⟩
    have hno : (nums.isEmpty && strs.isEmpty) = false := by
      by_contra hc
      simp only [Bool.not_eq_false, Bool.and_eq_true, List.isEmpty_iff] at hc
      exact h1 hc
    have hall : nums.all JSVal.isNumber = false := by
      by_contra hc
      simp only [Bool.not_eq_false] at hc
      exact h2 (List.all_eq_true.mp hc)
    unfold divideString hasNoSeparators
    rw [hno, hall]
    rfl

theorem divideString_ok_of (input : String) (nums : List JSVal)
    (strs : List String) (pe : Option Bool) (rx : Option (List JS.ClassItem))
    (hnum : nums.all JSVal.isNumber = true)
    (hreg : getRegex strs = .ok rx) :
    ∃ r, divideString input nums strs pe = .ok r := by
  unfold divideString hasNoSeparators
  by_cases h1 : (nums.isEmpty && strs.isEmpty) = true
  · rw [if_pos h1]
    exact ⟨[input], rfl⟩
  · rw [if_neg h1, if_neg (by simp [hnum]), hreg]
    exact ⟨_, rfl⟩

theorem splitClass_singleton (c : Char) (l : List Char) :
    JS.splitClass (fun x => x == c) l = JS.splitSubGo [c] l.length l := by
  induction l with
  | nil => rfl
  | cons x rest ih =>
    show JS.splitClass (fun x => x == c) (x :: rest) =
      JS.splitSubGo [c] (rest.length + 1) (x :: rest)
    by_cases hx : x = c
    · subst hx
      have hpre : ([x].isPrefixOf (x :: rest)) = true := by
        simp [List.isPrefixOf]
      simp only [JS.splitClass, JS.splitSubGo, hpre, if_true]
      rw [if_pos (by simp)]
      simp [ih]
    · have hpre : ([c].isPrefixOf (x :: rest)) = false := by
        simp [List.isPrefixOf]
        exact fun h => hx h.symm
      simp only [JS.splitClass, JS.splitSubGo, hpre, Bool.false_eq_true, if_false]
      rw [if_neg (by simp; exact hx)]
      rw [ih]

end Divider

namespace Divider

set_option maxRecDepth 10000

/-- C3: with zero numeric indices, zero delimiter strings and no options
record, `divider` returns exactly `[s]` for a string input and the original
array (element-for-element) for an array input. -/
theorem claim_C3 :
    (∀ s : String, divider (.str s) [] = .ok (.flat [s])) ∧
    (∀ a : List String, divider (.arr a) [] = .ok (.flat a)) :=
  ⟨fun _ => rfl, fun _ => rfl⟩

/-- C6 (amended): `divideString` raises the `InvalidSeparator` error exactly
when at least one separator (numeric or string) is supplied and the
numeric-separator list contains a non-number (first conjunct); but with all
numerics valid the call may still throw: `escapeRegExp` leaves `-` unescaped,
so a string delimiter such as `'z-a'` compiles to an out-of-order character
class range and throws a RegExp `SyntaxError`.  The call returns normally
whenever the numerics are valid and the delimiters' character class
compiles (second conjunct). -/
theorem claim_C6 :
    (∀ (input : String) (nums : List JSVal) (strs : List String)
        (pe : Option Bool),
      divideString input nums strs pe = .error "Invalid numeric separators" ↔
        (¬(nums = [] ∧ strs = []) ∧ ¬(∀ v ∈ nums, v.isNumber = true))) ∧
    (∀ (input : String) (nums : List JSVal) (strs : List String)
        (pe : Option Bool) (rx : Option (List JS.ClassItem)),
      nums.all JSVal.isNumber = true → getRegex strs = .ok rx →
        ∃ r, divideString input nums strs pe = .ok r) :=
  ⟨divideString_invalid_iff,
    fun input nums strs pe rx hnum hreg =>
      divideString_ok_of input nums strs pe rx hnum hreg⟩

/-- Counterexample to C6 as stated: with the valid (empty) numeric-separator
list, `divideString 'x' [] ['z-a']` does not return normally — the unescaped
`-` makes the compiled class `[z-a]` an out-of-order range, and the call
throws the RegExp `SyntaxError` instead. -/
theorem claim_C6_counterexample :
    ([] : List JSVal).all JSVal.isNumber = true ∧
    divideString "x" [] ["z-a"] Option.none = .error JS.regexRangeError ∧
    ∀ r, divideString "x" [] ["z-a"] Option.none ≠ .ok r :=
  ⟨rfl, rfl, fun r h => by
    have he : divideString "x" [] ["z-a"] Option.none = .error JS.regexRangeError := rfl
    rw [he] at h
    exact Except.noConfusion h⟩

/-- Witness for C6's two clauses at concrete inputs: the iff at an invalid
numeric separator, and the ok clause at the compiling delimiter `','`. -/
theorem claim_C6_witness :
    divideString "x" [JSVal.str "a"] [] Option.none =
      .error "Invalid numeric separators" ∧
    (∃ r, divideString "x" [] [","] Option.none = .ok r) :=
  ⟨(claim_C6.1 "x" [JSVal.str "a"] [] Option.none).mpr
      ⟨by simp, fun h => absurd (h (JSVal.str "a") (by simp)) (by decide)⟩,
    claim_C6.2 "x" [] [","] Option.none (some [JS.ClassItem.lit ',']) rfl rfl⟩

/-- C7: `queryDivider('a=&b&=c&')` with default options returns exactly
`[['a',''],['b',''],['','c'],['','']]` — the query is split on `&` with
consecutive and trailing empty parts preserved, each part split on the first
`=` only, and missing keys/values appearing as empty strings in input
order. -/
theorem claim_C7 :
    queryDivider "a=&b&=c&" {} = .ok [["a", ""], ["b", ""], ["", "c"], ["", ""]] := rfl

/-- C1 (code bug): evaluating the code on the spec's round-trip example.
`quotedDivide('"a,b",c,,"d""e"')` is documented (spec and the function's own
`@example`) to return `['a,b','c','','d"e']`, but the code returns
`['a','b"','c','','d"e']`: `countUnescaped` always reports quote parity 0
because `dividePreserve(text, quote+quote)` splits on the character class
`[""]` — i.e. at every single quote — so quoted fields are never merged
across the delimiter. -/
theorem claim_C1 :
    quotedDivide "\"a,b\",c,,\"d\"\"e\"" {} = .ok ["a", "b\"", "c", "", "d\"e"] ∧
    (["a", "b\"", "c", "", "d\"e"] : List String) ≠ ["a,b", "c", "", "d\"e"] :=
  ⟨rfl, by decide⟩

/-- C8 (code bug): `countUnescaped` is documented to count quote characters
not part of a doubled escape pair, but for every single-character quote it
returns 0 on every input — on `text = '"'`, `quote = '"'` it returns 0 where
the one unescaped quote makes the documented answer 1.  The final conjunct
shows the collapse is universal over single-character quotes: splitting on
`quote+quote` compiles to the character class `[qq]`, which removes every
quote character from every chunk. -/
theorem claim_C8 :
    countUnescaped "\"" "\"" = .ok 0 ∧ (0 : Nat) ≠ 1 ∧
    (∀ (text : String) (qc : Char),
        countUnescaped text (String.mk [qc]) = .ok 0) :=
  ⟨rfl, by decide, countUnescaped_single⟩

/-- Counterexample to C2 as stated: the delimiter `'ab'` is not treated as a
whole fixed substring.  `'xa_by'` contains no occurrence of the substring
`'ab'`, so the spec's Delimiter Splitter contract leaves it whole, yet
`divideString` splits it into `['x','_','y']` because `getRegex` compiles
the delimiters into one character class and therefore cuts at the individual
characters `a` and `b`. -/
theorem claim_C2_counterexample :
    divideString "xa_by" [] ["ab"] (some true) = .ok ["x", "_", "y"] ∧
    delimiterSplitSpec "ab" "xa_by" = ["xa_by"] ∧
    (["x", "_", "y"] : List String) ≠ ["xa_by"] :=
  ⟨rfl, rfl, by decide⟩

/-- C2 (amended): the Delimiter Splitter treats a delimiter as a fixed
substring only when the delimiter is a single character; in general it cuts
at every occurrence of each individual character of each delimiter.  For
every single-character delimiter the code agrees exactly with the spec's
fixed-substring splitting contract. -/
theorem claim_C2 (c : Char) (s : String) :
    divideString s [] [String.mk [c]] (some true) =
      .ok (delimiterSplitSpec (String.mk [c]) s) := by
  obtain ⟨items, hreg, hsem⟩ := getRegex_single_sem c
  rw [divideString_single_of_regex hreg]
  have hfun : JS.memClass items = fun x => x == c := funext hsem
  unfold JS.splitClassStr
  rw [hfun]
  unfold delimiterSplitSpec JS.splitSubStr
  rw [splitClass_singleton]
  rfl

/-- C4: supplying the numeric indices in any order gives identical results —
`divider` on a permutation of an index list equals `divider` on the sorted
(or any other) arrangement, with or without a trailing options record. -/
theorem claim_C4 (s : String) (l₁ l₂ : List Int) (o : DividerOptions)
    (h : l₁.Perm l₂) :
    divider (.str s) (l₁.map .num ++ [.opt o]) =
      divider (.str s) (l₂.map .num ++ [.opt o]) ∧
    divider (.str s) (l₁.map .num) = divider (.str s) (l₂.map .num) :=
  ⟨divider_str_perm_opt s h o, divider_str_perm_plain s h⟩

/-- Witness for C4 at `s = 'hello'`, indices `[2,1]` versus `[1,2]`. -/
theorem claim_C4_witness :
    ([2, 1] : List Int).Perm [1, 2] ∧
    divider (.str "hello") ([(2 : Int), 1].map .num ++ [.opt { preserveEmpty := some true }]) =
      divider (.str "hello") ([(1 : Int), 2].map .num ++ [.opt { preserveEmpty := some true }]) :=
  ⟨by decide, (claim_C4 "hello" [2, 1] [1, 2] { preserveEmpty := some true } (by decide)).1⟩

/-- C5: the option pipeline applies trim, then flatten, then exclude, in that
fixed order (fourth conjunct), each stage returning its input unchanged when
its flag is unset (first three conjuncts); in particular
`divide(' a , ,b ', ',', {trim:true, exclude:'empty'})` drops the
all-whitespace middle segment while the same call without `trim` keeps
it. -/
theorem claim_C5 :
    (∀ (r : DResult) (o : DividerOptions) (pe : Bool),
        o.trim.getD false = false → applyTrimOption r o pe = .ok r) ∧
    (∀ (r : DResult) (o : DividerOptions),
        o.flatten.getD false = false → applyFlattenOption r o = r) ∧
    (∀ (r : DResult) (o : DividerOptions) (pe : Bool),
        isNoneMode o.exclude = true → applyExcludeOption r o pe = .ok r) ∧
    (∀ (r : DResult) (o : DividerOptions),
        applyDividerOptions r o =
          (applyTrimOption r o (o.preserveEmpty == some true) >>= fun afterTrim =>
            applyExcludeOption (applyFlattenOption afterTrim o) o
              (o.preserveEmpty == some true))) ∧
    divider (.str " a , ,b ")
        [.str ",", .opt { trim := some true, exclude := some .empty }] =
      .ok (.flat ["a", "b"]) ∧
    divider (.str " a , ,b ") [.str ",", .opt { exclude := some .empty }] =
      .ok (.flat [" a ", " ", "b "]) := by
  refine ⟨?_, ?_, ?_, ?_, rfl, rfl⟩
  · intro r o pe h
    unfold applyTrimOption
    rw [h]
    rfl
  · intro r o h
    unfold applyFlattenOption
    rw [h]
    rfl
  · intro r o pe h
    unfold applyExcludeOption
    rw [if_pos h]
  · intro r o
    rfl

/-- Witness for C5's skip clauses at concrete inputs. -/
theorem claim_C5_witness :
    applyTrimOption (.flat ["x"]) {} false = .ok (.flat ["x"]) ∧
    applyFlattenOption (.flat ["x"]) {} = .flat ["x"] ∧
    applyExcludeOption (.flat ["x"]) { exclude := some .none } false = .ok (.flat ["x"]) :=
  ⟨claim_C5.1 _ _ _ rfl, claim_C5.2.1 _ _ rfl, claim_C5.2.2.1 _ _ _ rfl⟩

/-- C9: on a non-empty line containing no occurrence of the (single
character) quote, `quotedDivide` with `trim:false` returns exactly the plain
preserve-empty split `dividePreserve(line, d)`: merging, outer-quote
stripping and escape restoration are all the identity. -/
theorem claim_C9 (line d : String) (qc : Char) (h1 : line ≠ "")
    (h2 : qc ∉ line.data) :
    quotedDivide line
        { delimiter := d, quote := String.mk [qc], trim := false, lenient := true } =
      dividePreserve line d :=
  quotedDivide_no_quotes line d qc h1 h2

/-- Witness for C9 at `line = 'a-b'`, delimiter `'-'`, quote `'"'`. -/
theorem claim_C9_witness :
    ("a-b" : String) ≠ "" ∧ '"' ∉ ("a-b" : String).data ∧
    quotedDivide "a-b"
        { delimiter := "-", quote := String.mk ['"'], trim := false, lenient := true } =
      dividePreserve "a-b" "-" :=
  ⟨by decide, by decide, claim_C9 "a-b" "-" '"' (by decide) (by decide)⟩

/-- C10: `pathDivider('')` returns exactly `['']` for every combination of
the `trim` and `collapse` options, even though `collapse = true` removes
every empty segment from the result for any non-empty input (second
conjunct). -/
theorem claim_C10 :
    (∀ t c : Bool, pathDivider "" { trim := t, collapse := c } = .ok [""]) ∧
    (∀ (s : String) (opts : PathDividerOptions) (xs : List String),
        s ≠ "" → opts.collapse = true → pathDivider s opts = .ok xs → "" ∉ xs) := by
  refine ⟨fun _ _ => rfl, ?_⟩
  intro s opts xs hs hc hok
  have hne : isEmptyString s = false := by simp [isEmptyString, hs]
  unfold pathDivider at hok
  rw [hne] at hok
  simp only [Bool.false_eq_true, if_false] at hok
  cases hb : buildPathSegments s opts.collapse with
  | error e =>
    rw [hb] at hok
    exact absurd hok (by simp [Except.bind])
  | ok segs =>
    rw [hb] at hok
    have hok' : (Except.ok
        (applyCollapseRules (pathTrimSegments segs opts.trim) opts.collapse) :
          Except String (List String)) = .ok xs := hok
    have hxs : applyCollapseRules (pathTrimSegments segs opts.trim) opts.collapse = xs := by
      injection hok'
    intro hmem
    rw [← hxs, hc] at hmem
    simp [applyCollapseRules, isEmptyString, List.mem_filter] at hmem

/-- Witness for C10: the empty-input clause at both defaults, and the
collapse clause at `'/a//b/'`. -/
theorem claim_C10_witness :
    pathDivider "" { trim := false, collapse := true } = .ok [""] ∧
    ("/a//b/" : String) ≠ "" ∧ "" ∉ (["a", "b"] : List String) :=
  ⟨claim_C10.1 false true, by decide,
    claim_C10.2 "/a//b/" {} ["a", "b"] (by decide) rfl (by rfl)⟩

end Divider
